import Mathlib

/-!
Shallow embedding of the battle-log analysis engine (backend/api/analysis.py)
of the clash-royale-wrapped repository, together with proofs about the
claims of its specification.

Every input record is an open bag of optional fields in the source
(dictionaries accessed with `.get(key, default)`); the embedding models each
field as an `Option` and the `.get` idiom as `Option.getD`.  Percentages and
scores, computed with float arithmetic in the source, are modelled as exact
rationals; Python `round(x, 1)` is modelled by `roundTo1` below.
-/

/-- Card record: `{"name": ...}`; `card.get('name', '')` becomes `name.getD ""`. -/
structure CardR where
  name : Option String
deriving DecidableEq, Repr

/-- Participant record: one player inside a `team`/`opponent` side of a match. -/
structure Participant where
  cards : Option (List CardR)
  crowns : Option Nat
  name : Option String
  tag : Option String
deriving DecidableEq, Repr

/-- Match record of the battle log: `team`, `opponent`, `battleTime`. -/
structure MatchRecord where
  team : Option (List Participant)
  opponent : Option (List Participant)
  battleTime : Option String
deriving DecidableEq, Repr

/-- Player profile record as consumed by the analysis functions. -/
structure Profile where
  name : Option String
  tag : Option String
  trophies : Option Nat
  bestTrophies : Option Nat
  currentDeck : Option (List CardR)
deriving DecidableEq, Repr

/-- Sum of crowns over one side: `sum(p.get('crowns', 0) for p in side)`. -/
def sideCrowns (side : List Participant) : Nat :=
  (side.map (fun p => p.crowns.getD 0)).sum

/-- Crowns of the subject's side: `sum(... for p in battle.get('team', []))`. -/
def teamCrowns (m : MatchRecord) : Nat := sideCrowns (m.team.getD [])

/-- Crowns of the opposing side: `sum(... for p in battle.get('opponent', []))`. -/
def oppCrowns (m : MatchRecord) : Nat := sideCrowns (m.opponent.getD [])

/-- Shared outcome rule: the subject wins iff `team_crowns > opponent_crowns`. -/
def isWin (m : MatchRecord) : Bool := oppCrowns m < teamCrowns m

/-- Shared outcome rule: the subject loses iff `opponent_crowns > team_crowns`. -/
def isLoss (m : MatchRecord) : Bool := teamCrowns m < oppCrowns m

/-- Model of Python `round(x, 1)` over exact rationals: round `10 x` to the
nearest integer and divide by `10` again. -/
def roundTo1 (q : ℚ) : ℚ := ((round (q * 10) : ℤ) : ℚ) / 10

theorem round_mono_rat {x y : ℚ} (h : x ≤ y) : round x ≤ round y := by
  rw [round_eq, round_eq]
  exact Int.floor_mono (by linarith)

theorem roundTo1_nonneg {q : ℚ} (h : 0 ≤ q) : 0 ≤ roundTo1 q := by
  have h1 : (0 : ℤ) ≤ round (q * 10) := by
    have := round_mono_rat (x := 0) (y := q * 10) (by nlinarith)
    simpa using this
  have h2 : (0 : ℚ) ≤ ((round (q * 10) : ℤ) : ℚ) := by exact_mod_cast h1
  unfold roundTo1
  positivity

theorem roundTo1_le_100 {q : ℚ} (h : q ≤ 100) : roundTo1 q ≤ 100 := by
  have h1 : round (q * 10) ≤ round ((1000 : ℤ) : ℚ) :=
    round_mono_rat (by push_cast; linarith)
  rw [round_intCast] at h1
  have h2 : ((round (q * 10) : ℤ) : ℚ) ≤ 1000 := by exact_mod_cast h1
  unfold roundTo1
  linarith

/-! ### Longest win streak (`get_longest_win_streak`) -/

/-- One step of the streak scan: increment the running counter on a WIN and
fold it into the maximum, reset the counter to 0 otherwise. -/
def streakStep (st : Nat × Nat) (m : MatchRecord) : Nat × Nat :=
  if isWin m then (max st.1 (st.2 + 1), st.2 + 1) else (st.1, 0)

/-- Longest win streak: linear scan of the battle log carrying
`(max_streak, current_streak)`, starting from `(0, 0)`.  The source's early
return `0` for an empty log coincides with the fold on `[]`. -/
def get_longest_win_streak (battle_log : List MatchRecord) : Nat :=
  (battle_log.foldl streakStep (0, 0)).1

/-- Spec-side definition (from the claim's words): length of the leading run
of consecutive WIN matches. -/
def leadingWins : List MatchRecord → Nat
  | [] => 0
  | m :: t => if isWin m then leadingWins t + 1 else 0

/-- Spec-side definition (from the claim's words): maximum length of a run of
consecutive WIN matches anywhere in the list. -/
def maxWinRun : List MatchRecord → Nat
  | [] => 0
  | m :: t => max (leadingWins (m :: t)) (maxWinRun t)

theorem leadingWins_le_maxWinRun (l : List MatchRecord) :
    leadingWins l ≤ maxWinRun l := by
  cases l with
  | nil => exact le_refl 0
  | cons m t => exact le_max_left _ _

theorem leadingWins_le_length (l : List MatchRecord) :
    leadingWins l ≤ l.length := by
  induction l with
  | nil => exact le_refl 0
  | cons m t ih =>
    simp only [leadingWins, List.length_cons]
    split
    · omega
    · omega

theorem maxWinRun_le_length (l : List MatchRecord) :
    maxWinRun l ≤ l.length := by
  induction l with
  | nil => exact le_refl 0
  | cons m t ih =>
    have h := leadingWins_le_length (m :: t)
    simp only [maxWinRun, List.length_cons] at *
    omega

/-- Value of the streak counter seen by the scan when entering the list with a
current run of length `cur` (maximum contribution of the remaining matches). -/
def runMax (cur : Nat) : List MatchRecord → Nat
  | [] => 0
  | m :: t => if isWin m then max (cur + 1) (runMax (cur + 1) t) else runMax 0 t

theorem streak_foldl (l : List MatchRecord) :
    ∀ maxS cur, (l.foldl streakStep (maxS, cur)).1 = max maxS (runMax cur l) := by
  induction l with
  | nil => intro maxS cur; simp [runMax]
  | cons m t ih =>
    intro maxS cur
    by_cases hw : isWin m
    · rw [List.foldl_cons,
        show streakStep (maxS, cur) m = (max maxS (cur + 1), cur + 1) by
          simp [streakStep, hw],
        ih, show runMax cur (m :: t) = max (cur + 1) (runMax (cur + 1) t) by
          simp [runMax, hw]]
      omega
    · rw [List.foldl_cons,
        show streakStep (maxS, cur) m = (maxS, 0) by simp [streakStep, hw],
        ih, show runMax cur (m :: t) = runMax 0 t by simp [runMax, hw]]

theorem runMax_eq (l : List MatchRecord) :
    ∀ cur, runMax cur l =
      max (maxWinRun l) (if 0 < leadingWins l then cur + leadingWins l else 0) := by
  induction l with
  | nil => intro cur; simp [runMax, maxWinRun, leadingWins]
  | cons m t ih =>
    intro cur
    by_cases hw : isWin m
    · have hlm := leadingWins_le_maxWinRun t
      rw [show runMax cur (m :: t) = max (cur + 1) (runMax (cur + 1) t) by
          simp [runMax, hw],
        ih, show maxWinRun (m :: t) = max (leadingWins t + 1) (maxWinRun t) by
          simp [maxWinRun, leadingWins, hw],
        show leadingWins (m :: t) = leadingWins t + 1 by simp [leadingWins, hw]]
      split_ifs <;> omega
    · have hlm := leadingWins_le_maxWinRun t
      rw [show runMax cur (m :: t) = runMax 0 t by simp [runMax, hw],
        ih, show maxWinRun (m :: t) = max 0 (maxWinRun t) by
          simp [maxWinRun, leadingWins, hw],
        show leadingWins (m :: t) = 0 by simp [leadingWins, hw]]
      split_ifs <;> omega

/-- Claim C2: `get_longest_win_streak` returns the maximum length of a run of
consecutive WIN matches in list order (the running counter resetting to 0 on
any loss or draw); the result is at most the length of the list and is 0 for
the empty list. -/
theorem longest_win_streak_correct (battle_log : List MatchRecord) :
    get_longest_win_streak battle_log = maxWinRun battle_log ∧
    get_longest_win_streak battle_log ≤ battle_log.length ∧
    get_longest_win_streak ([] : List MatchRecord) = 0 := by
  have heq : get_longest_win_streak battle_log = maxWinRun battle_log := by
    have h1 := streak_foldl battle_log 0 0
    have h2 := runMax_eq battle_log 0
    have h3 := leadingWins_le_maxWinRun battle_log
    unfold get_longest_win_streak
    rw [h1, h2]
    split <;> omega
  refine ⟨heq, ?_, rfl⟩
  rw [heq]
  exact maxWinRun_le_length battle_log

/-! ### Comeback-king percentage (`get_comeback_king_percentage`) -/

/-- One step of the comeback scan carrying `(comeback_wins, total_wins)`;
within a WIN the match counts as a comeback when the opponent scored. -/
def cbStep (st : Nat × Nat) (m : MatchRecord) : Nat × Nat :=
  if isWin m then (st.1 + (if 0 < oppCrowns m then 1 else 0), st.2 + 1) else st

/-- Comeback-king percentage: among WIN matches, the share in which the
opponent had at least one crown, times 100, rounded to 1 decimal;
`0.0` for an empty list or when there are no wins. -/
def get_comeback_king_percentage (battle_log : List MatchRecord) : ℚ :=
  if battle_log = [] then 0
  else
    let st := battle_log.foldl cbStep (0, 0)
    if st.2 = 0 then 0 else roundTo1 ((st.1 : ℚ) / (st.2 : ℚ) * 100)

/-- Spec-side count (from the claim's words): number of WIN matches. -/
def winCount (battle_log : List MatchRecord) : Nat :=
  battle_log.countP (fun m => isWin m)

/-- Spec-side count (from the claim's words): number of WIN matches in which
the opponent's crowns are greater than 0. -/
def comebackCount (battle_log : List MatchRecord) : Nat :=
  battle_log.countP (fun m => isWin m && decide (0 < oppCrowns m))

theorem cb_foldl (l : List MatchRecord) :
    ∀ a b, l.foldl cbStep (a, b) = (a + comebackCount l, b + winCount l) := by
  induction l with
  | nil => intro a b; simp [comebackCount, winCount]
  | cons m t ih =>
    intro a b
    rw [List.foldl_cons]
    by_cases hw : isWin m
    · by_cases hc : 0 < oppCrowns m
      · rw [show cbStep (a, b) m = (a + 1, b + 1) by simp [cbStep, hw, hc], ih,
          show comebackCount (m :: t) = comebackCount t + 1 by
            simp [comebackCount, List.countP_cons, hw, hc],
          show winCount (m :: t) = winCount t + 1 by
            simp [winCount, List.countP_cons, hw]]
        refine Prod.ext ?_ ?_ <;> omega
      · rw [show cbStep (a, b) m = (a, b + 1) by simp [cbStep, hw, hc], ih,
          show comebackCount (m :: t) = comebackCount t by
            simp [comebackCount, List.countP_cons, hw, hc],
          show winCount (m :: t) = winCount t + 1 by
            simp [winCount, List.countP_cons, hw]]
        refine Prod.ext ?_ ?_ <;> omega
    · rw [show cbStep (a, b) m = (a, b) by simp [cbStep, hw], ih,
        show comebackCount (m :: t) = comebackCount t by
          simp [comebackCount, List.countP_cons, hw],
        show winCount (m :: t) = winCount t by
          simp [winCount, List.countP_cons, hw]]

theorem comebackCount_le_winCount (l : List MatchRecord) :
    comebackCount l ≤ winCount l := by
  unfold comebackCount winCount
  apply List.countP_mono_left
  intro a _ h
  exact (Bool.and_eq_true _ _).mp h |>.1

/-- Claim C3: `get_comeback_king_percentage` equals the number of comeback
wins over the number of wins, times 100, rounded to one decimal (0 when there
are no wins, which covers the empty list), and always lies in [0, 100]. -/
theorem comeback_percentage_correct (battle_log : List MatchRecord) :
    get_comeback_king_percentage battle_log =
      (if winCount battle_log = 0 then 0
       else roundTo1 ((comebackCount battle_log : ℚ) / (winCount battle_log : ℚ) * 100)) ∧
    0 ≤ get_comeback_king_percentage battle_log ∧
    get_comeback_king_percentage battle_log ≤ 100 := by
  have heq : get_comeback_king_percentage battle_log =
      (if winCount battle_log = 0 then 0
       else roundTo1 ((comebackCount battle_log : ℚ) / (winCount battle_log : ℚ) * 100)) := by
    unfold get_comeback_king_percentage
    by_cases hnil : battle_log = []
    · subst hnil
      simp [winCount]
    · rw [if_neg hnil, cb_foldl]
      simp
  refine ⟨heq, ?_⟩
  rw [heq]
  by_cases hz : winCount battle_log = 0
  · rw [if_pos hz]; norm_num
  · rw [if_neg hz]
    have hwpos : (0 : ℚ) < (winCount battle_log : ℚ) := by
      exact_mod_cast Nat.pos_of_ne_zero hz
    have hle : (comebackCount battle_log : ℚ) ≤ (winCount battle_log : ℚ) := by
      exact_mod_cast comebackCount_le_winCount battle_log
    have hx0 : (0 : ℚ) ≤ (comebackCount battle_log : ℚ) / (winCount battle_log : ℚ) * 100 := by
      positivity
    have hx100 : (comebackCount battle_log : ℚ) / (winCount battle_log : ℚ) * 100 ≤ 100 := by
      have : (comebackCount battle_log : ℚ) / (winCount battle_log : ℚ) ≤ 1 :=
        (div_le_one hwpos).mpr hle
      linarith
    exact ⟨roundTo1_nonneg hx0, roundTo1_le_100 hx100⟩

/-! ### Insertion-ordered association lists

Python dictionaries (`Counter`, `defaultdict`, plain `dict`) preserve
insertion order.  They are modelled as association lists: an update rewrites
the value of the first entry with the given key in place, or appends a fresh
entry at the end. -/

/-- First value stored under key `k`, if any. -/
def alookup {K V : Type} [DecidableEq K] (l : List (K × V)) (k : K) : Option V :=
  match l with
  | [] => none
  | (k1, v) :: t => if k1 = k then some v else alookup t k

/-- Dictionary update: apply `f` to the value of `k` (defaulting to `d` when
absent), keeping the entry's position, or append `(k, f d)` at the end. -/
def updF {K V : Type} [DecidableEq K] (l : List (K × V)) (k : K) (d : V) (f : V → V) :
    List (K × V) :=
  match l with
  | [] => [(k, f d)]
  | (k1, v) :: t => if k1 = k then (k1, f v) :: t else (k1, v) :: updF t k d f

/-- Key set of an association list. -/
def akeys {K V : Type} (l : List (K × V)) : List K := l.map Prod.fst

theorem alookup_updF_self {K V : Type} [DecidableEq K]
    (l : List (K × V)) (k : K) (d : V) (f : V → V) :
    alookup (updF l k d f) k = some (f ((alookup l k).getD d)) := by
  induction l with
  | nil => simp [alookup, updF]
  | cons e t ih =>
    obtain ⟨k1, v⟩ := e
    by_cases hk : k1 = k
    · simp [alookup, updF, hk]
    · simp [alookup, updF, hk, ih]

theorem alookup_updF_ne {K V : Type} [DecidableEq K]
    (l : List (K × V)) (k k2 : K) (d : V) (f : V → V) (h : k2 ≠ k) :
    alookup (updF l k d f) k2 = alookup l k2 := by
  induction l with
  | nil =>
    have hne : ¬ k = k2 := fun hh => h hh.symm
    simp [alookup, updF, hne]
  | cons e t ih =>
    obtain ⟨k1, v⟩ := e
    by_cases hk : k1 = k
    · have hne : ¬ k1 = k2 := by
        intro hh
        exact h (by rw [← hh, hk])
      rw [show updF ((k1, v) :: t) k d f = (k1, f v) :: t by simp [updF, hk]]
      simp [alookup, hne]
    · rw [show updF ((k1, v) :: t) k d f = (k1, v) :: updF t k d f by simp [updF, hk]]
      by_cases hk2 : k1 = k2
      · simp [alookup, hk2]
      · simp [alookup, hk2, ih]

theorem mem_akeys_updF {K V : Type} [DecidableEq K]
    (l : List (K × V)) (k a : K) (d : V) (f : V → V) :
    a ∈ akeys (updF l k d f) ↔ a ∈ akeys l ∨ a = k := by
  induction l with
  | nil => simp [akeys, updF]
  | cons e t ih =>
    obtain ⟨k1, v⟩ := e
    by_cases hk : k1 = k
    · subst hk
      by_cases ha : a = k1 <;> simp [akeys, updF, ha]
    · simp only [updF, if_neg hk, akeys, List.map_cons, List.mem_cons]
      rw [show (a ∈ List.map Prod.fst (updF t k d f)) = (a ∈ akeys (updF t k d f)) from rfl,
        ih]
      simp [akeys]
      tauto

theorem nodup_akeys_updF {K V : Type} [DecidableEq K]
    (l : List (K × V)) (k : K) (d : V) (f : V → V) (h : (akeys l).Nodup) :
    (akeys (updF l k d f)).Nodup := by
  induction l with
  | nil => simp [akeys, updF]
  | cons e t ih =>
    obtain ⟨k1, v⟩ := e
    simp only [akeys, List.map_cons, List.nodup_cons] at h
    by_cases hk : k1 = k
    · subst hk
      rw [show updF ((k1, v) :: t) k1 d f = (k1, f v) :: t by simp [updF]]
      simp only [akeys, List.map_cons, List.nodup_cons]
      exact h
    · simp only [updF, if_neg hk, akeys, List.map_cons, List.nodup_cons]
      constructor
      · intro hmem
        rw [show (k1 ∈ List.map Prod.fst (updF t k d f)) = (k1 ∈ akeys (updF t k d f)) from
            rfl, mem_akeys_updF] at hmem
        rcases hmem with hmem | hmem
        · exact h.1 hmem
        · exact hk hmem
      · exact ih h.2

theorem alookup_of_mem_nodup {K V : Type} [DecidableEq K]
    {l : List (K × V)} {k : K} {v : V} (hn : (akeys l).Nodup) (hm : (k, v) ∈ l) :
    alookup l k = some v := by
  induction l with
  | nil => simp at hm
  | cons e t ih =>
    obtain ⟨k1, v1⟩ := e
    simp only [akeys, List.map_cons, List.nodup_cons] at hn
    rcases List.mem_cons.mp hm with he | hm2
    · rw [Prod.mk.injEq] at he
      simp [alookup, he.1, he.2]
    · have hk1 : k1 ≠ k := by
        intro hk
        subst hk
        exact hn.1 (by simpa [akeys] using List.mem_map_of_mem Prod.fst hm2)
      simp [alookup, hk1, ih hn.2 hm2]

theorem mem_of_alookup_some {K V : Type} [DecidableEq K]
    {l : List (K × V)} {k : K} {v : V} (h : alookup l k = some v) : (k, v) ∈ l := by
  induction l with
  | nil => simp [alookup] at h
  | cons e t ih =>
    obtain ⟨k1, v1⟩ := e
    by_cases hk : k1 = k
    · subst hk
      rw [show alookup ((k1, v1) :: t) k1 = some v1 by simp [alookup]] at h
      rw [Option.some.injEq] at h
      subst h
      exact List.mem_cons_self _ _
    · simp only [alookup, if_neg hk] at h
      exact List.mem_cons_of_mem _ (ih h)

/-- Fold a list of occurrences into an insertion-ordered dictionary:
for each occurrence `o`, the value stored under `key o` (defaulting to `d`)
is updated with `f o`.  This models the per-record update loops of the
source's `Counter`/`defaultdict` aggregations. -/
def afold {O K V : Type} [DecidableEq K] (key : O → K) (d : V) (f : O → V → V)
    (os : List O) (acc : List (K × V)) : List (K × V) :=
  os.foldl (fun a o => updF a (key o) d (f o)) acc

theorem afold_alookup_of_filter_nil {O K V : Type} [DecidableEq K]
    (key : O → K) (d : V) (f : O → V → V) :
    ∀ (os : List O) (acc : List (K × V)) (k : K),
      os.filter (fun o => key o = k) = [] →
      alookup (afold key d f os acc) k = alookup acc k := by
  intro os
  induction os with
  | nil => intro acc k _; rfl
  | cons o t ih =>
    intro acc k hf
    have hcons : (if key o = k then True else False) → False := by
      intro hcontra
      by_cases hk : key o = k
      · simp [List.filter_cons, hk] at hf
      · simp [hk] at hcontra
    have hk : ¬ key o = k := by
      intro hk
      exact hcons (by simp [hk])
    have hft : t.filter (fun o2 => key o2 = k) = [] := by
      simpa [List.filter_cons, hk] using hf
    rw [show afold key d f (o :: t) acc = afold key d f t (updF acc (key o) d (f o)) from rfl,
      ih _ _ hft, alookup_updF_ne _ _ _ _ _ (fun hh => hk hh.symm)]

theorem afold_alookup_of_filter_ne {O K V : Type} [DecidableEq K]
    (key : O → K) (d : V) (f : O → V → V) :
    ∀ (os : List O) (acc : List (K × V)) (k : K),
      os.filter (fun o => key o = k) ≠ [] →
      alookup (afold key d f os acc) k =
        some ((os.filter (fun o => key o = k)).foldl (fun v o => f o v)
          ((alookup acc k).getD d)) := by
  intro os
  induction os with
  | nil => intro acc k hne; simp at hne
  | cons o t ih =>
    intro acc k hne
    rw [show afold key d f (o :: t) acc = afold key d f t (updF acc (key o) d (f o)) from rfl]
    by_cases hk : key o = k
    · subst hk
      have hlk : alookup (updF acc (key o) d (f o)) (key o) =
          some (f o ((alookup acc (key o)).getD d)) := alookup_updF_self _ _ _ _
      by_cases hft : t.filter (fun o2 => key o2 = key o) = []
      · rw [afold_alookup_of_filter_nil key d f t _ _ hft, hlk]
        simp [List.filter_cons, hft]
      · rw [ih _ _ hft, hlk]
        simp [List.filter_cons, hft]
    · have hft : t.filter (fun o2 => key o2 = k) ≠ [] := by
        simpa [List.filter_cons, hk] using hne
      rw [ih _ _ hft, alookup_updF_ne _ _ _ _ _ (fun hh => hk hh.symm)]
      simp [List.filter_cons, hk]

theorem afold_nodup {O K V : Type} [DecidableEq K] (key : O → K) (d : V) (f : O → V → V) :
    ∀ (os : List O) (acc : List (K × V)), (akeys acc).Nodup →
      (akeys (afold key d f os acc)).Nodup := by
  intro os
  induction os with
  | nil => intro acc h; exact h
  | cons o t ih =>
    intro acc h
    exact ih _ (nodup_akeys_updF _ _ _ _ h)

/-! ### Generic selection loops

`pickBest` models the source loops that keep a current best candidate and a
`best_score` starting at 0, replacing it only when an eligible candidate's
score is strictly greater.  `pickMaxBy` models Python's `max(..., key=...)`
over a nonempty sequence (the first maximal element is kept, since the
running maximum is replaced only on strict increase). -/

/-- One step of the best-candidate loop. -/
def pickStep {A : Type} (elig : A → Bool) (score : A → ℚ) (st : Option A × ℚ) (x : A) :
    Option A × ℚ :=
  if elig x ∧ st.2 < score x then (some x, score x) else st

/-- Best-candidate loop: start with no candidate and `best_score = 0`; update
on eligible candidates with a strictly greater score. -/
def pickBest {A : Type} (elig : A → Bool) (score : A → ℚ) (l : List A) : Option A × ℚ :=
  l.foldl (pickStep elig score) (none, 0)

/-- Invariant of the best-candidate loop after scanning `pre`. -/
def pickInv {A : Type} (elig : A → Bool) (score : A → ℚ) (pre : List A)
    (st : Option A × ℚ) : Prop :=
  match st.1 with
  | none => st.2 = 0 ∧ ∀ x ∈ pre, elig x = true → score x ≤ 0
  | some b => st.2 = score b ∧ 0 < score b ∧ elig b = true ∧
      ∃ l1 l2, pre = l1 ++ b :: l2 ∧
        (∀ x ∈ l1, elig x = true → score x < score b) ∧
        (∀ x ∈ l2, elig x = true → score x ≤ score b)

theorem pickInv_step {A : Type} (elig : A → Bool) (score : A → ℚ)
    (pre : List A) (st : Option A × ℚ) (x : A) (h : pickInv elig score pre st) :
    pickInv elig score (pre ++ [x]) (pickStep elig score st x) := by
  obtain ⟨sb, sq⟩ := st
  by_cases hc : elig x ∧ sq < score x
  · rw [show pickStep elig score (sb, sq) x = (some x, score x) by
      simp only [pickStep]; rw [if_pos hc]]
    cases sb with
    | none =>
      obtain ⟨hq, hall⟩ := h
      subst hq
      refine ⟨rfl, hc.2, hc.1, pre, [], rfl, ?_, by simp⟩
      intro y hy he
      exact lt_of_le_of_lt (hall y hy he) hc.2
    | some b =>
      obtain ⟨hq, hpos, heb, l1, l2, hpre, h1, h2⟩ := h
      subst hq
      refine ⟨rfl, lt_trans hpos hc.2, hc.1, l1 ++ b :: l2, [], by rw [hpre], ?_, by simp⟩
      intro y hy he
      rcases List.mem_append.mp hy with hy1 | hy2
      · exact lt_trans (h1 y hy1 he) hc.2
      · rcases List.mem_cons.mp hy2 with hy3 | hy4
        · subst hy3; exact hc.2
        · exact lt_of_le_of_lt (h2 y hy4 he) hc.2
  · rw [show pickStep elig score (sb, sq) x = (sb, sq) by
      simp only [pickStep]; rw [if_neg hc]]
    cases sb with
    | none =>
      obtain ⟨hq, hall⟩ := h
      subst hq
      refine ⟨rfl, ?_⟩
      intro y hy he
      rcases List.mem_append.mp hy with hy1 | hy2
      · exact hall y hy1 he
      · rcases List.mem_cons.mp hy2 with hy3 | hy4
        · subst hy3
          by_contra hgt
          exact hc ⟨he, by linarith [lt_of_not_le hgt]⟩
        · simp at hy4
    | some b =>
      obtain ⟨hq, hpos, heb, l1, l2, hpre, h1, h2⟩ := h
      subst hq
      refine ⟨rfl, hpos, heb, l1, l2 ++ [x], by rw [hpre]; simp, h1, ?_⟩
      intro y hy he
      rcases List.mem_append.mp hy with hy1 | hy2
      · exact h2 y hy1 he
      · rcases List.mem_cons.mp hy2 with hy3 | hy4
        · subst hy3
          by_contra hgt
          exact hc ⟨he, lt_of_not_le hgt⟩
        · simp at hy4

theorem pickInv_foldl {A : Type} (elig : A → Bool) (score : A → ℚ) :
    ∀ (l pre : List A) (st : Option A × ℚ), pickInv elig score pre st →
      pickInv elig score (pre ++ l) (l.foldl (pickStep elig score) st) := by
  intro l
  induction l with
  | nil => intro pre st h; simpa using h
  | cons x t ih =>
    intro pre st h
    have h2 := ih (pre ++ [x]) _ (pickInv_step elig score pre st x h)
    simpa using h2

theorem pickBest_inv {A : Type} (elig : A → Bool) (score : A → ℚ) (l : List A) :
    pickInv elig score l (pickBest elig score l) := by
  have h0 : pickInv elig score [] ((none : Option A), (0 : ℚ)) := by
    exact ⟨rfl, by simp⟩
  simpa using pickInv_foldl elig score l [] (none, 0) h0

theorem pickBest_none {A : Type} (elig : A → Bool) (score : A → ℚ) (l : List A)
    (h : (pickBest elig score l).1 = none) :
    ∀ x ∈ l, elig x = true → score x ≤ 0 := by
  have hinv := pickBest_inv elig score l
  unfold pickInv at hinv
  rw [h] at hinv
  exact hinv.2

theorem pickBest_some {A : Type} (elig : A → Bool) (score : A → ℚ) (l : List A) (b : A)
    (h : (pickBest elig score l).1 = some b) :
    (pickBest elig score l).2 = score b ∧ 0 < score b ∧ elig b = true ∧
      ∃ l1 l2, l = l1 ++ b :: l2 ∧
        (∀ x ∈ l1, elig x = true → score x < score b) ∧
        (∀ x ∈ l2, elig x = true → score x ≤ score b) := by
  have hinv := pickBest_inv elig score l
  unfold pickInv at hinv
  rw [h] at hinv
  exact hinv

/-- Python `max(seq, key=meas)` on a list: `none` on the empty list, else the
first element of maximal measure. -/
def pickMaxBy {A : Type} (meas : A → Nat) : List A → Option A
  | [] => none
  | h :: t => some (t.foldl (fun b x => if meas b < meas x then x else b) h)

theorem pickMaxBy_foldl_spec {A : Type} (meas : A → Nat) :
    ∀ (t : List A) (h : A),
      (t.foldl (fun b x => if meas b < meas x then x else b) h) ∈ h :: t ∧
      ∀ x ∈ h :: t, meas x ≤ meas (t.foldl (fun b x => if meas b < meas x then x else b) h) := by
  intro t
  induction t with
  | nil => intro h; exact ⟨List.mem_cons_self _ _, by simp⟩
  | cons y t2 ih =>
    intro h
    rw [List.foldl_cons]
    obtain ⟨ihm, ihb⟩ := ih (if meas h < meas y then y else h)
    constructor
    · rcases List.mem_cons.mp ihm with he | ht
      · rw [he]
        split
        · exact List.mem_cons_of_mem _ (List.mem_cons_self _ _)
        · exact List.mem_cons_self _ _
      · exact List.mem_cons_of_mem _ (List.mem_cons_of_mem _ ht)
    · intro x hx
      have hhy : meas h ≤ meas (if meas h < meas y then y else h) ∧
          meas y ≤ meas (if meas h < meas y then y else h) := by
        split <;> omega
      have hite := ihb (if meas h < meas y then y else h) (List.mem_cons_self _ _)
      rcases List.mem_cons.mp hx with hxh | hx2
      · subst hxh
        exact le_trans hhy.1 hite
      · rcases List.mem_cons.mp hx2 with hxy | hxt
        · subst hxy
          exact le_trans hhy.2 hite
        · exact ihb x (List.mem_cons_of_mem _ hxt)

theorem pickMaxBy_mem {A : Type} (meas : A → Nat) (l : List A) (b : A)
    (h : pickMaxBy meas l = some b) : b ∈ l := by
  cases l with
  | nil => simp [pickMaxBy] at h
  | cons x t =>
    simp only [pickMaxBy, Option.some.injEq] at h
    subst h
    exact (pickMaxBy_foldl_spec meas t x).1

theorem pickMaxBy_ge {A : Type} (meas : A → Nat) (l : List A) (b : A)
    (h : pickMaxBy meas l = some b) : ∀ x ∈ l, meas x ≤ meas b := by
  cases l with
  | nil => simp [pickMaxBy] at h
  | cons x t =>
    simp only [pickMaxBy, Option.some.injEq] at h
    subst h
    exact (pickMaxBy_foldl_spec meas t x).2

/-! ### Top loyal cards (`get_top_loyal_cards`) -/

/-- All non-empty card names used by team-side participants, in scan order:
`for battle: for player in team: for card in cards: if name: count += 1`. -/
def cardOccs (battle_log : List MatchRecord) : List String :=
  battle_log.flatMap (fun m => (m.team.getD []).flatMap (fun p =>
    ((p.cards.getD []).map (fun c => c.name.getD "")).filter (fun n => n ≠ "")))

/-- Per-card usage counter (`Counter`), in first-seen insertion order. -/
def cardUsage (battle_log : List MatchRecord) : List (String × Nat) :=
  afold (fun n => n) 0 (fun _ v => v + 1) (cardOccs battle_log) []

/-- Fallback counting of the profile's `currentDeck`, each card name set to 1
(`card_usage[card_name] = 1` is a plain assignment, not an increment). -/
def deckOnce (deck : List CardR) : List (String × Nat) :=
  afold (fun n => n) 0 (fun _ _ => 1)
    ((deck.map (fun c => c.name.getD "")).filter (fun n => n ≠ "")) []

/-- Usage counter actually ranked: the battle-log counter, or the
`currentDeck` fallback when the former is empty and a deck is present. -/
def usageWithFallback (player_data : Profile) (battle_log : List MatchRecord) :
    List (String × Nat) :=
  let u := cardUsage battle_log
  if u = [] then
    match player_data.currentDeck with
    | some deck => deckOnce deck
    | none => []
  else u

/-- Stable insertion (descending by count): the new element goes before the
first entry whose count is not strictly greater. -/
def insE (x : String × Nat) : List (String × Nat) → List (String × Nat)
  | [] => [x]
  | y :: ys => if x.2 < y.2 then y :: insE x ys else x :: y :: ys

/-- Stable sort by count descending, ties keeping the original (first-seen)
order; models `Counter.most_common`'s ordering. -/
def sortByCount : List (String × Nat) → List (String × Nat)
  | [] => []
  | x :: t => insE x (sortByCount t)

theorem mem_insE (x z : String × Nat) (l : List (String × Nat)) :
    z ∈ insE x l ↔ z = x ∨ z ∈ l := by
  induction l with
  | nil => simp [insE]
  | cons y ys ih =>
    by_cases hlt : x.2 < y.2
    · rw [show insE x (y :: ys) = y :: insE x ys by simp [insE, hlt]]
      simp only [List.mem_cons, ih]
      tauto
    · rw [show insE x (y :: ys) = x :: y :: ys by simp [insE, hlt]]
      simp only [List.mem_cons]

theorem insE_pairwise (x : String × Nat) (l : List (String × Nat))
    (h : l.Pairwise (fun a b => b.2 ≤ a.2)) :
    (insE x l).Pairwise (fun a b => b.2 ≤ a.2) := by
  induction l with
  | nil => simp [insE]
  | cons y ys ih =>
    rw [List.pairwise_cons] at h
    by_cases hlt : x.2 < y.2
    · rw [show insE x (y :: ys) = y :: insE x ys by simp [insE, hlt]]
      rw [List.pairwise_cons]
      constructor
      · intro z hz
        rcases (mem_insE x z ys).mp hz with hzx | hzy
        · subst hzx; omega
        · exact h.1 z hzy
      · exact ih h.2
    · rw [show insE x (y :: ys) = x :: y :: ys by simp [insE, hlt]]
      rw [List.pairwise_cons]
      constructor
      · intro z hz
        rcases List.mem_cons.mp hz with hzy | hzys
        · subst hzy; omega
        · have := h.1 z hzys
          omega
      · exact List.pairwise_cons.mpr h

theorem sortByCount_pairwise (l : List (String × Nat)) :
    (sortByCount l).Pairwise (fun a b => b.2 ≤ a.2) := by
  induction l with
  | nil => simp [sortByCount]
  | cons x t ih => exact insE_pairwise x _ ih

theorem filter_insE_eq (x : String × Nat) (l : List (String × Nat)) (c : Nat)
    (hx : x.2 = c) :
    (insE x l).filter (fun p => p.2 = c) = x :: l.filter (fun p => p.2 = c) := by
  induction l with
  | nil => simp [insE, hx]
  | cons y ys ih =>
    by_cases hlt : x.2 < y.2
    · have hyc : ¬ (y.2 = c) := by omega
      rw [show insE x (y :: ys) = y :: insE x ys by simp [insE, hlt]]
      simp only [List.filter_cons]
      rw [if_neg (by simpa using hyc), if_neg (by simpa using hyc), ih]
    · rw [show insE x (y :: ys) = x :: y :: ys by simp [insE, hlt]]
      simp only [List.filter_cons]
      rw [if_pos (by simpa using hx)]

theorem filter_insE_ne (x : String × Nat) (l : List (String × Nat)) (c : Nat)
    (hx : ¬ (x.2 = c)) :
    (insE x l).filter (fun p => p.2 = c) = l.filter (fun p => p.2 = c) := by
  induction l with
  | nil => simp [insE, hx]
  | cons y ys ih =>
    by_cases hlt : x.2 < y.2
    · rw [show insE x (y :: ys) = y :: insE x ys by simp [insE, hlt]]
      simp only [List.filter_cons, ih]
    · rw [show insE x (y :: ys) = x :: y :: ys by simp [insE, hlt]]
      simp only [List.filter_cons]
      rw [if_neg (by simpa using hx)]

theorem filter_sortByCount (l : List (String × Nat)) (c : Nat) :
    (sortByCount l).filter (fun p => p.2 = c) = l.filter (fun p => p.2 = c) := by
  induction l with
  | nil => rfl
  | cons x t ih =>
    by_cases hx : x.2 = c
    · rw [show sortByCount (x :: t) = insE x (sortByCount t) from rfl,
        filter_insE_eq x _ c hx, ih]
      simp only [List.filter_cons]
      rw [if_pos (by simpa using hx)]
    · rw [show sortByCount (x :: t) = insE x (sortByCount t) from rfl,
        filter_insE_ne x _ c hx, ih]
      simp only [List.filter_cons]
      rw [if_neg (by simpa using hx)]

/-- Entry of the top-loyal-cards result. -/
structure CardEntry where
  name : String
  count : Nat
  icon : String
deriving DecidableEq, Repr

/-- Model of Python `str.lower()`: lower-case every character. -/
def pyLower (s : String) : String := ⟨s.data.map Char.toLower⟩

/-- Fixed CDN icon template applied to a lower-cased, space-stripped name. -/
def iconUrl (name : String) : String :=
  "https://cdn.clashroyale.com/cards/300/" ++ ((pyLower name).replace " " "") ++ ".png"

/-- Model of `Counter.most_common(3)`: stable sort by count descending, then
the first 3 entries. -/
def mostCommon3 (l : List (String × Nat)) : List (String × Nat) :=
  (sortByCount l).take 3

/-- Top loyal cards: the 3 highest-count cards, each annotated with its
deterministic CDN icon URL. -/
def get_top_loyal_cards (player_data : Profile) (battle_log : List MatchRecord) :
    List CardEntry :=
  (mostCommon3 (usageWithFallback player_data battle_log)).map
    (fun e => ⟨e.1, e.2, iconUrl e.1⟩)

/-- Claim C4: `get_top_loyal_cards` returns at most 3 entries, ordered by
count non-increasing; each entry's icon equals the fixed CDN template applied
to its name; and for every count value, the returned entries with that count
appear in exactly the first-seen insertion order of the usage scan (filtering
the output by any fixed count yields a prefix of the correspondingly filtered
usage counter). -/
theorem top_loyal_cards_correct (player_data : Profile) (battle_log : List MatchRecord) :
    (get_top_loyal_cards player_data battle_log).length ≤ 3 ∧
    (get_top_loyal_cards player_data battle_log).Pairwise (fun a b => b.count ≤ a.count) ∧
    (∀ e ∈ get_top_loyal_cards player_data battle_log, e.icon = iconUrl e.name) ∧
    (∀ c : Nat,
      ((get_top_loyal_cards player_data battle_log).map (fun e => (e.name, e.count))).filter
          (fun p => p.2 = c) <+:
        (usageWithFallback player_data battle_log).filter (fun p => p.2 = c)) := by
  refine ⟨?_, ?_, ?_, ?_⟩
  · rw [get_top_loyal_cards, List.length_map, mostCommon3, List.length_take]
    omega
  · rw [get_top_loyal_cards, List.pairwise_map]
    have hs := sortByCount_pairwise (usageWithFallback player_data battle_log)
    have ht : (mostCommon3 (usageWithFallback player_data battle_log)).Sublist
        (sortByCount (usageWithFallback player_data battle_log)) := by
      rw [mostCommon3]
      exact List.take_sublist 3 _
    exact (hs.sublist ht)
  · intro e he
    rw [get_top_loyal_cards] at he
    obtain ⟨p, _, hpe⟩ := List.mem_map.mp he
    rw [← hpe]
  · intro c
    have hmap : (get_top_loyal_cards player_data battle_log).map (fun e => (e.name, e.count)) =
        mostCommon3 (usageWithFallback player_data battle_log) := by
      rw [get_top_loyal_cards, List.map_map]
      have hfun : ((fun e : CardEntry => (e.name, e.count)) ∘ fun e : String × Nat =>
          ({ name := e.1, count := e.2, icon := iconUrl e.1 } : CardEntry)) = id := by
        funext p
        rfl
      rw [hfun, List.map_id]
    rw [hmap]
    have hpre := List.take_prefix 3 (sortByCount (usageWithFallback player_data battle_log))
    have hfil := hpre.filter (fun p => decide (p.2 = c))
    rw [mostCommon3]
    calc ((sortByCount (usageWithFallback player_data battle_log)).take 3).filter
          (fun p => p.2 = c)
        <+: (sortByCount (usageWithFallback player_data battle_log)).filter
          (fun p => p.2 = c) := hfil
      _ = (usageWithFallback player_data battle_log).filter (fun p => p.2 = c) :=
          filter_sortByCount _ c

/-! ### Nemesis (`get_nemesis`) -/

/-- Per-opponent accumulated record (`defaultdict` value). -/
structure OppStats where
  name : String
  tag : String
  wins : Nat
  losses : Nat
  total : Nat
deriving DecidableEq, Repr

/-- Key of an opponent occurrence: the opponent participant's tag. -/
def oppKey (o : Bool × Bool × Participant) : String := o.2.2.tag.getD ""

/-- Opponent occurrences of the scan, in order: one entry per opponent
participant with a non-empty tag, tagged with the match's WIN/LOSS flags
(`for battle: for opp in opponent: if opp_tag: ...`). -/
def oppOccs (battle_log : List MatchRecord) : List (Bool × Bool × Participant) :=
  battle_log.flatMap (fun m =>
    ((m.opponent.getD []).filter (fun o => o.tag.getD "" ≠ "")).map
      (fun o => (isWin m, isLoss m, o)))

/-- Per-occurrence update: refresh name/tag, bump `total`, bump `wins` on a
WIN, else bump `losses` on a LOSS (the source's `if/elif`). -/
def oppUpd (o : Bool × Bool × Participant) (s : OppStats) : OppStats :=
  { name := o.2.2.name.getD "Unknown",
    tag := o.2.2.tag.getD "",
    wins := s.wins + (if o.1 then 1 else 0),
    losses := s.losses + (if o.1 then 0 else if o.2.1 then 1 else 0),
    total := s.total + 1 }

/-- Default opponent record of the `defaultdict`. -/
def oppDefault : OppStats := ⟨"", "", 0, 0, 0⟩

/-- Per-opponent-tag statistics dictionary, in first-seen insertion order. -/
def opponentStats (battle_log : List MatchRecord) : List (String × OppStats) :=
  afold oppKey oppDefault oppUpd (oppOccs battle_log) []

/-- Sentinel returned when there is no qualifying opponent data. -/
def nemesisSentinel : OppStats := ⟨"N/A", "N/A", 0, 0, 0⟩

/-- Nemesis: the opponent record with the greatest `total`
(`max(opponent_stats.items(), key=lambda x: x[1]["total"])`; Python's `max`
keeps the first maximal item).  The source's early return for an empty log
coincides with the empty-dictionary sentinel. -/
def get_nemesis (battle_log : List MatchRecord) : OppStats :=
  match pickMaxBy (fun e => e.2.total) (opponentStats battle_log) with
  | some e => e.2
  | none => nemesisSentinel

/-- Spec-side count: opponent occurrences carrying tag `t`. -/
def occsAgainst (battle_log : List MatchRecord) (t : String) :
    List (Bool × Bool × Participant) :=
  (oppOccs battle_log).filter (fun o => oppKey o = t)

/-- Spec-side count: matches faced against tag `t` (one per occurrence). -/
def totalAgainst (battle_log : List MatchRecord) (t : String) : Nat :=
  (occsAgainst battle_log t).length

/-- Spec-side count: WIN occurrences against tag `t`. -/
def winsAgainst (battle_log : List MatchRecord) (t : String) : Nat :=
  (occsAgainst battle_log t).countP (fun o => o.1)

/-- Spec-side count: LOSS occurrences against tag `t`. -/
def lossesAgainst (battle_log : List MatchRecord) (t : String) : Nat :=
  (occsAgainst battle_log t).countP (fun o => !o.1 && o.2.1)

/-- Spec-side count: DRAW occurrences against tag `t`. -/
def drawsAgainst (battle_log : List MatchRecord) (t : String) : Nat :=
  (occsAgainst battle_log t).countP (fun o => !o.1 && !o.2.1)

theorem oppFold_total (rel : List (Bool × Bool × Participant)) :
    ∀ v0, (rel.foldl (fun v o => oppUpd o v) v0).total = v0.total + rel.length := by
  induction rel with
  | nil => intro v0; simp
  | cons o r ih =>
    intro v0
    rw [List.foldl_cons, ih]
    simp [oppUpd]
    omega

theorem oppFold_wins (rel : List (Bool × Bool × Participant)) :
    ∀ v0, (rel.foldl (fun v o => oppUpd o v) v0).wins =
      v0.wins + rel.countP (fun o => o.1) := by
  induction rel with
  | nil => intro v0; simp
  | cons o r ih =>
    intro v0
    rw [List.foldl_cons, ih, List.countP_cons]
    by_cases hw : o.1 = true
    · simp [oppUpd, hw]
      try omega
    · simp [oppUpd, hw]
      try omega

theorem oppFold_losses (rel : List (Bool × Bool × Participant)) :
    ∀ v0, (rel.foldl (fun v o => oppUpd o v) v0).losses =
      v0.losses + rel.countP (fun o => !o.1 && o.2.1) := by
  induction rel with
  | nil => intro v0; simp
  | cons o r ih =>
    intro v0
    rw [List.foldl_cons, ih, List.countP_cons]
    by_cases hw : o.1 = true
    · simp [oppUpd, hw]
      try omega
    · by_cases hl : o.2.1 = true
      · simp [oppUpd, hw, hl]
        try omega
      · simp [oppUpd, hw, hl]
        try omega

theorem oppFold_tag (rel : List (Bool × Bool × Participant)) (t : String) :
    ∀ v0, rel ≠ [] → (∀ o ∈ rel, oppKey o = t) →
      (rel.foldl (fun v o => oppUpd o v) v0).tag = t := by
  induction rel with
  | nil => intro v0 hne _; exact absurd rfl hne
  | cons o r ih =>
    intro v0 _ hall
    rw [List.foldl_cons]
    by_cases hr : r = []
    · subst hr
      rw [show ([] : List (Bool × Bool × Participant)).foldl (fun v o => oppUpd o v)
          (oppUpd o v0) = oppUpd o v0 from rfl]
      exact hall o (List.mem_cons_self _ _)
    · exact ih _ hr (fun o2 ho2 => hall o2 (List.mem_cons_of_mem _ ho2))

theorem occ_partition (rel : List (Bool × Bool × Participant)) :
    rel.length = rel.countP (fun o => o.1) + rel.countP (fun o => !o.1 && o.2.1) +
      rel.countP (fun o => !o.1 && !o.2.1) := by
  induction rel with
  | nil => simp
  | cons o r ih =>
    simp only [List.length_cons, List.countP_cons]
    by_cases hw : o.1 = true
    · simp [hw]
      try omega
    · by_cases hl : o.2.1 = true
      · simp [hw, hl]
        try omega
      · simp [hw, hl]
        try omega

theorem opponentStats_nodup (battle_log : List MatchRecord) :
    (akeys (opponentStats battle_log)).Nodup := by
  apply afold_nodup
  simp [akeys]

theorem opponentStats_alookup_char (battle_log : List MatchRecord) (t : String)
    (h : occsAgainst battle_log t ≠ []) :
    alookup (opponentStats battle_log) t =
      some ((occsAgainst battle_log t).foldl (fun v o => oppUpd o v) oppDefault) := by
  rw [opponentStats, afold_alookup_of_filter_ne oppKey oppDefault oppUpd
    (oppOccs battle_log) [] t h]
  rfl

/-- Claim C5: whenever `get_nemesis` does not return the sentinel, the
returned record's `total` equals its `wins` plus its `losses` plus the number
of draws against the returned tag, and no tracked opponent tag has a greater
`total` (for an untracked or empty tag `totalAgainst` is 0, so the bound
holds for every string). -/
theorem nemesis_correct (battle_log : List MatchRecord)
    (h : get_nemesis battle_log ≠ nemesisSentinel) :
    (get_nemesis battle_log).total =
      (get_nemesis battle_log).wins + (get_nemesis battle_log).losses +
        drawsAgainst battle_log (get_nemesis battle_log).tag ∧
    ∀ t : String, totalAgainst battle_log t ≤ (get_nemesis battle_log).total := by
  cases hpick : pickMaxBy (fun e => e.2.total) (opponentStats battle_log) with
  | none =>
    exact absurd (by simp [get_nemesis, hpick]) h
  | some e =>
    have hne : get_nemesis battle_log = e.2 := by simp [get_nemesis, hpick]
    have hmem : e ∈ opponentStats battle_log := pickMaxBy_mem _ _ _ hpick
    have hge := pickMaxBy_ge _ _ _ hpick
    have hnodup := opponentStats_nodup battle_log
    have hlook : alookup (opponentStats battle_log) e.1 = some e.2 :=
      alookup_of_mem_nodup hnodup hmem
    have hfil : occsAgainst battle_log e.1 ≠ [] := by
      intro hnil
      rw [opponentStats] at hlook
      rw [afold_alookup_of_filter_nil oppKey oppDefault oppUpd
        (oppOccs battle_log) [] e.1 hnil] at hlook
      simp [alookup] at hlook
    have hchar := opponentStats_alookup_char battle_log e.1 hfil
    rw [hlook, Option.some.injEq] at hchar
    have hallkey : ∀ o ∈ occsAgainst battle_log e.1, oppKey o = e.1 := by
      intro o ho
      have := List.of_mem_filter ho
      simpa using this
    have htag : e.2.tag = e.1 := by
      rw [hchar]
      exact oppFold_tag _ _ _ hfil hallkey
    have htot : e.2.total = totalAgainst battle_log e.1 := by
      rw [hchar, oppFold_total]
      simp [oppDefault, totalAgainst]
    have hwin : e.2.wins = winsAgainst battle_log e.1 := by
      rw [hchar, oppFold_wins]
      simp [oppDefault, winsAgainst]
    have hloss : e.2.losses = lossesAgainst battle_log e.1 := by
      rw [hchar, oppFold_losses]
      simp [oppDefault, lossesAgainst]
    constructor
    · rw [hne, htag, htot, hwin, hloss]
      rw [totalAgainst, winsAgainst, lossesAgainst, drawsAgainst]
      exact occ_partition _
    · intro t
      rw [hne]
      by_cases hat : occsAgainst battle_log t = []
      · rw [totalAgainst, hat]
        simp
      · have hchart := opponentStats_alookup_char battle_log t hat
        have hmemt := mem_of_alookup_some hchart
        have hlet := hge _ hmemt
        have htott : ((occsAgainst battle_log t).foldl (fun v o => oppUpd o v)
            oppDefault).total = totalAgainst battle_log t := by
          rw [oppFold_total]
          simp [oppDefault, totalAgainst]
        rw [← htott]
        exact hlet

/-- Demo battle record: a 3-0 win against opponent tag `#OPP`. -/
def demoOppBattle : MatchRecord :=
  { team := some [⟨some [], some 3, some "Me", some "#ME"⟩],
    opponent := some [⟨some [], some 0, some "Rival", some "#OPP"⟩],
    battleTime := none }

theorem nemesis_correct_witness :
    (get_nemesis [demoOppBattle]).total =
      (get_nemesis [demoOppBattle]).wins + (get_nemesis [demoOppBattle]).losses +
        drawsAgainst [demoOppBattle] (get_nemesis [demoOppBattle]).tag ∧
    totalAgainst [demoOppBattle] "#ZZZ" ≤ (get_nemesis [demoOppBattle]).total :=
  ⟨(nemesis_correct [demoOppBattle] (by decide)).1,
   (nemesis_correct [demoOppBattle] (by decide)).2 "#ZZZ"⟩

/-! ### Rare gem (`get_rare_gem`) -/

/-- Per-card accumulated `{wins, uses}` (`defaultdict` value). -/
structure GemStats where
  wins : Nat
  uses : Nat
deriving DecidableEq, Repr

/-- Card occurrences of the scan: one `(won, name)` pair per non-empty card
name used by a team-side participant, in scan order. -/
def gemOccs (battle_log : List MatchRecord) : List (Bool × String) :=
  battle_log.flatMap (fun m =>
    ((m.team.getD []).flatMap (fun p =>
      ((p.cards.getD []).map (fun c => c.name.getD "")).filter (fun n => n ≠ ""))).map
      (fun n => (isWin m, n)))

/-- Per-occurrence update: bump `uses`, and `wins` when the match was won. -/
def gemUpd (o : Bool × String) (s : GemStats) : GemStats :=
  ⟨s.wins + (if o.1 then 1 else 0), s.uses + 1⟩

/-- Per-card statistics dictionary, in first-seen insertion order. -/
def cardStats (battle_log : List MatchRecord) : List (String × GemStats) :=
  afold Prod.snd ⟨0, 0⟩ gemUpd (gemOccs battle_log) []

/-- Win rate of a card entry: `wins / uses * 100` when `uses > 0`, else 0. -/
def gemWinRate (e : String × GemStats) : ℚ :=
  if 0 < e.2.uses then (e.2.wins : ℚ) / (e.2.uses : ℚ) * 100 else 0

/-- Score of a card entry: `win_rate / max(uses, 1)`. -/
def gemScore (e : String × GemStats) : ℚ :=
  gemWinRate e / ((max e.2.uses 1 : Nat) : ℚ)

/-- Eligibility of a card entry: `uses >= 2` (scored at all) and `uses <= 5`
(checked in the update condition). -/
def gemElig (e : String × GemStats) : Bool :=
  decide (2 ≤ e.2.uses) && decide (e.2.uses ≤ 5)

/-- Rare-gem output record. -/
structure RareGem where
  name : String
  win_rate : ℚ
  usage : Nat
deriving DecidableEq, Repr

/-- Sentinel returned when no candidate qualifies. -/
def raregemSentinel : RareGem := ⟨"N/A", 0, 0⟩

/-- Rare gem: scan `card_stats` keeping the best strictly-positive-scoring
candidate with `2 <= uses <= 5` (`best_score` starts at 0 and is replaced
only on strict increase); sentinel when no update ever fires.  The source's
early return for an empty log coincides with the empty-dictionary case. -/
def get_rare_gem (battle_log : List MatchRecord) : RareGem :=
  match (pickBest gemElig gemScore (cardStats battle_log)).1 with
  | some e => ⟨e.1, roundTo1 (gemWinRate e), e.2.uses⟩
  | none => raregemSentinel

/-- Demo battle record: a 0-1 loss in which the team used `Knight`. -/
def demoGemLoss : MatchRecord :=
  { team := some [⟨some [⟨some "Knight"⟩], some 0, some "Me", some "#ME"⟩],
    opponent := some [⟨some [], some 1, some "Foe", some "#F"⟩],
    battleTime := none }

/-- Counterexample to claim C6 as stated: after two losses with `Knight` the
card has `uses = 2` (within `[2, 5]`), yet `get_rare_gem` returns the
sentinel, because its score `0` is not strictly greater than the initial
`best_score = 0`. -/
theorem rare_gem_claim_counterexample :
    (∃ e ∈ cardStats [demoGemLoss, demoGemLoss], 2 ≤ e.2.uses ∧ e.2.uses ≤ 5) ∧
    get_rare_gem [demoGemLoss, demoGemLoss] = raregemSentinel := by
  have hstats : cardStats [demoGemLoss, demoGemLoss] =
      [("Knight", (⟨0, 2⟩ : GemStats))] := by decide
  constructor
  · rw [hstats]
    exact ⟨("Knight", (⟨0, 2⟩ : GemStats)), by simp, by simp, by simp⟩
  · have hpick : (pickBest gemElig gemScore (cardStats [demoGemLoss, demoGemLoss])).1 =
        none := by
      rw [hstats]
      rw [show pickBest gemElig gemScore [("Knight", (⟨0, 2⟩ : GemStats))] =
        pickStep gemElig gemScore (none, 0) ("Knight", (⟨0, 2⟩ : GemStats)) from rfl]
      rw [pickStep, if_neg]
      intro hcon
      have hlt := hcon.2
      norm_num [gemScore, gemWinRate] at hlt
    simp [get_rare_gem, hpick]

/-- Claim C6 (amended): if some card has accumulated `2 <= uses <= 5` and at
least one win (hence a strictly positive score), `get_rare_gem` returns a
decomposition witnessing the first highest-scoring qualifying card: every
qualifying card before it scores strictly less, every qualifying card scores
at most its score, and the output record is built from its statistics. -/
theorem rare_gem_amended (battle_log : List MatchRecord)
    (h : ∃ e ∈ cardStats battle_log, gemElig e = true ∧ 0 < e.2.wins) :
    ∃ e l1 l2, cardStats battle_log = l1 ++ e :: l2 ∧ gemElig e = true ∧
      get_rare_gem battle_log = ⟨e.1, roundTo1 (gemWinRate e), e.2.uses⟩ ∧
      (∀ x ∈ l1, gemElig x = true → gemScore x < gemScore e) ∧
      (∀ x ∈ cardStats battle_log, gemElig x = true → gemScore x ≤ gemScore e) := by
  obtain ⟨e0, he0mem, he0elig, he0wins⟩ := h
  have h25 : 2 ≤ e0.2.uses ∧ e0.2.uses ≤ 5 := by
    have hh := he0elig
    rw [gemElig, Bool.and_eq_true, decide_eq_true_eq, decide_eq_true_eq] at hh
    exact hh
  have hpos : 0 < gemScore e0 := by
    have huses : 0 < e0.2.uses := by omega
    rw [gemScore, gemWinRate, if_pos huses]
    have hwr : (0 : ℚ) < (e0.2.wins : ℚ) / (e0.2.uses : ℚ) * 100 := by
      have hw : (0 : ℚ) < (e0.2.wins : ℚ) := by exact_mod_cast he0wins
      have hu : (0 : ℚ) < (e0.2.uses : ℚ) := by exact_mod_cast huses
      positivity
    have hden : (0 : ℚ) < ((max e0.2.uses 1 : Nat) : ℚ) := by
      exact_mod_cast (show 0 < max e0.2.uses 1 by omega)
    positivity
  cases hpick : (pickBest gemElig gemScore (cardStats battle_log)).1 with
  | none =>
    have hall := pickBest_none _ _ _ hpick
    have := hall e0 he0mem he0elig
    linarith
  | some b =>
    obtain ⟨hsc, hbpos, hbelig, l1, l2, hsplit, h1, h2⟩ :=
      pickBest_some _ _ _ _ hpick
    refine ⟨b, l1, l2, hsplit, hbelig, ?_, h1, ?_⟩
    · simp [get_rare_gem, hpick]
    · intro x hx hex
      rw [hsplit] at hx
      rcases List.mem_append.mp hx with hx1 | hx2
      · exact le_of_lt (h1 x hx1 hex)
      · rcases List.mem_cons.mp hx2 with hxb | hxl2
        · subst hxb; exact le_refl _
        · exact h2 x hxl2 hex

/-- Demo battle record: a 1-0 win in which the team used `Knight`. -/
def demoGemWin : MatchRecord :=
  { team := some [⟨some [⟨some "Knight"⟩], some 1, some "Me", some "#ME"⟩],
    opponent := some [⟨some [], some 0, some "Foe", some "#F"⟩],
    battleTime := none }

theorem rare_gem_amended_witness :
    ∃ e l1 l2, cardStats [demoGemWin, demoGemWin] = l1 ++ e :: l2 ∧ gemElig e = true ∧
      get_rare_gem [demoGemWin, demoGemWin] = ⟨e.1, roundTo1 (gemWinRate e), e.2.uses⟩ ∧
      (∀ x ∈ l1, gemElig x = true → gemScore x < gemScore e) ∧
      (∀ x ∈ cardStats [demoGemWin, demoGemWin], gemElig x = true →
        gemScore x ≤ gemScore e) :=
  rare_gem_amended [demoGemWin, demoGemWin] (by decide)

/-! ### Peak performance hours (`get_peak_performance_hours`) -/

/-- Whether a character list starts with a decimal digit. -/
def firstIsDigit : List Char → Bool
  | [] => false
  | c :: _ => c.isDigit

/-- Model of `re.sub(r'\.\d+', '', s)` at character level, as a left-to-right
scan: `skipping` is true while inside a digit run that followed a removed
dot; a dot followed by at least one digit starts a removed run. -/
def stripFracAux (skipping : Bool) : List Char → List Char
  | [] => []
  | c :: r =>
    if skipping ∧ c.isDigit then stripFracAux true r
    else if c = '.' ∧ firstIsDigit r then stripFracAux true r
    else c :: stripFracAux false r

/-- Remove every maximal `.digits` run, as `re.sub(r'\.\d+', '', s)` does. -/
def stripFrac (l : List Char) : List Char := stripFracAux false l

/-- Numeric value of a decimal digit character. -/
def digitVal (c : Char) : Nat := c.toNat - 48

/-- Gregorian leap-year rule used by the calendar validation. -/
def isLeapYear (y : Nat) : Bool :=
  (y % 4 = 0 && decide (y % 100 ≠ 0)) || (y % 400 = 0)

/-- Days in a month, for `datetime`'s day-of-month validation. -/
def daysInMonth (y m : Nat) : Nat :=
  if m = 2 then (if isLeapYear y then 29 else 28)
  else if m = 4 ∨ m = 6 ∨ m = 9 ∨ m = 11 then 30
  else 31

/-- Model of the source's timestamp handling: remove every `Z`
(`battle_time.replace('Z', '')`), strip the fractional-second component
(`re.sub(r'\.\d+', '', ...)`), then parse the remainder as the compact
calendar timestamp `YYYYMMDDTHHMMSS` (the `%Y%m%dT%H%M%S` format given to
`strptime`) with `datetime`'s range validation, returning its hour.  Any
failure is `none`: the source swallows the exception and skips the record. -/
def parseHourStr (s : String) : Option Nat :=
  match stripFrac (s.data.filter (fun c => c ≠ 'Z')) with
  | [y1, y2, y3, y4, mo1, mo2, d1, d2, tc, h1, h2, mi1, mi2, s1, s2] =>
    if ([y1, y2, y3, y4, mo1, mo2, d1, d2, h1, h2, mi1, mi2, s1, s2].all
          (fun c => c.isDigit)) ∧ tc = 'T' then
      let year := ((digitVal y1 * 10 + digitVal y2) * 10 + digitVal y3) * 10 + digitVal y4
      let month := digitVal mo1 * 10 + digitVal mo2
      let day := digitVal d1 * 10 + digitVal d2
      let hour := digitVal h1 * 10 + digitVal h2
      let minute := digitVal mi1 * 10 + digitVal mi2
      let second := digitVal s1 * 10 + digitVal s2
      if 1 ≤ year ∧ 1 ≤ month ∧ month ≤ 12 ∧ 1 ≤ day ∧ day ≤ daysInMonth year month ∧
          hour ≤ 23 ∧ minute ≤ 59 ∧ second ≤ 59 then some hour
      else none
    else none
  | _ => none

/-- Hour bucket of a match: `none` when `battleTime` is absent, empty, or
unparseable. -/
def matchHour (m : MatchRecord) : Option Nat := parseHourStr (m.battleTime.getD "")

/-- Per-hour accumulated `{wins, total}` (`defaultdict` value). -/
structure HourStats where
  wins : Nat
  total : Nat
deriving DecidableEq, Repr

/-- Hour occurrences of the scan: one `(hour, won)` pair per parseable match,
in scan order. -/
def hourOccs (battle_log : List MatchRecord) : List (Nat × Bool) :=
  battle_log.flatMap (fun m =>
    match matchHour m with
    | some h => [(h, isWin m)]
    | none => [])

/-- Per-occurrence update: bump `total`, and `wins` on a WIN. -/
def hourUpd (o : Nat × Bool) (s : HourStats) : HourStats :=
  ⟨s.wins + (if o.2 then 1 else 0), s.total + 1⟩

/-- Per-hour statistics dictionary, in first-seen insertion order. -/
def hourStats (battle_log : List MatchRecord) : List (Nat × HourStats) :=
  afold Prod.fst ⟨0, 0⟩ hourUpd (hourOccs battle_log) []

/-- Eligibility of an hour bucket: at least 3 parsed matches. -/
def hourElig (e : Nat × HourStats) : Bool := decide (3 ≤ e.2.total)

/-- Win rate of an hour bucket: `wins / total * 100`. -/
def hourRate (e : Nat × HourStats) : ℚ := (e.2.wins : ℚ) / (e.2.total : ℚ) * 100

/-- Display string of the winning hour: `H:00 AM` for hours 0-11, `12:00 PM`
for hour 12, `(H-12):00 PM` for hours 13-23 (the source's literal branch). -/
def formatHour (h : Nat) : String :=
  if h < 12 then toString h ++ ":00 AM"
  else (if h > 12 then toString (h - 12) else toString h) ++ ":00 PM"

/-- Peak-performance output record. -/
structure PeakOut where
  hour : String
  win_rate : ℚ
deriving DecidableEq, Repr

/-- Sentinel returned when no hour bucket qualifies. -/
def peakSentinel : PeakOut := ⟨"N/A", 0⟩

/-- Peak performance hours: scan the hour buckets keeping the best eligible
hour (`total >= 3`) with a strictly increasing win rate (`best_win_rate`
starts at 0); sentinel when no update ever fires.  The early returns for an
empty log and for an empty dictionary coincide with the empty-scan case. -/
def get_peak_performance_hours (battle_log : List MatchRecord) : PeakOut :=
  match (pickBest hourElig hourRate (hourStats battle_log)).1 with
  | some e =>
    ⟨formatHour e.1, roundTo1 (pickBest hourElig hourRate (hourStats battle_log)).2⟩
  | none => peakSentinel

/-- Claim C8: the selected hour bucket always has `total >= 3`, and whenever
no bucket reaches `total >= 3` (in particular when no timestamp parses or
the list is empty, so there are no buckets at all) the sentinel is
returned. -/
theorem peak_hours_threshold (battle_log : List MatchRecord) :
    (∀ e, (pickBest hourElig hourRate (hourStats battle_log)).1 = some e →
      3 ≤ e.2.total) ∧
    ((∀ e ∈ hourStats battle_log, e.2.total < 3) →
      get_peak_performance_hours battle_log = peakSentinel) := by
  constructor
  · intro e hp
    obtain ⟨_, _, helig, _⟩ := pickBest_some _ _ _ _ hp
    simpa [hourElig] using helig
  · intro hall
    cases hp : (pickBest hourElig hourRate (hourStats battle_log)).1 with
    | none => simp [get_peak_performance_hours, hp]
    | some e =>
      obtain ⟨_, _, helig, l1, l2, hsplit, _, _⟩ := pickBest_some _ _ _ _ hp
      have hmem : e ∈ hourStats battle_log := by
        rw [hsplit]
        exact List.mem_append.mpr (Or.inr (List.mem_cons_self _ _))
      have hlt := hall e hmem
      rw [hourElig, decide_eq_true_eq] at helig
      omega

/-- Demo battle record: a 0-1 loss at the given battle time. -/
def demoHourLoss (bt : String) : MatchRecord :=
  { team := some [⟨some [], some 0, some "Me", some "#ME"⟩],
    opponent := some [⟨some [], some 1, some "Foe", some "#F"⟩],
    battleTime := some bt }

/-- Demo battle record: a 1-0 win at the given battle time. -/
def demoHourWin (bt : String) : MatchRecord :=
  { team := some [⟨some [], some 1, some "Me", some "#ME"⟩],
    opponent := some [⟨some [], some 0, some "Foe", some "#F"⟩],
    battleTime := some bt }

theorem peak_hours_threshold_witness :
    get_peak_performance_hours
      [demoHourWin "20240101T120000.000Z", demoHourWin "20240102T121500.000Z"] =
      peakSentinel :=
  (peak_hours_threshold
    [demoHourWin "20240101T120000.000Z", demoHourWin "20240102T121500.000Z"]).2
    (by decide)

/-- Counterexample to claim C7 as stated: three parsed losses in the
12-o'clock bucket make an eligible hour (`total = 3 >= 3`), yet
`get_peak_performance_hours` returns the sentinel, because the bucket's win
rate `0` is not strictly greater than the initial `best_win_rate = 0`. -/
theorem peak_hours_claim_counterexample :
    (∃ e ∈ hourStats [demoHourLoss "20240101T120000.000Z",
        demoHourLoss "20240102T121500.000Z", demoHourLoss "20240103T123000.000Z"],
      3 ≤ e.2.total) ∧
    get_peak_performance_hours [demoHourLoss "20240101T120000.000Z",
        demoHourLoss "20240102T121500.000Z", demoHourLoss "20240103T123000.000Z"] =
      peakSentinel := by
  have hstats : hourStats [demoHourLoss "20240101T120000.000Z",
      demoHourLoss "20240102T121500.000Z", demoHourLoss "20240103T123000.000Z"] =
      [(12, (⟨0, 3⟩ : HourStats))] := by decide
  constructor
  · rw [hstats]
    exact ⟨(12, (⟨0, 3⟩ : HourStats)), by simp, by simp⟩
  · have hpick : (pickBest hourElig hourRate (hourStats [demoHourLoss "20240101T120000.000Z",
        demoHourLoss "20240102T121500.000Z", demoHourLoss "20240103T123000.000Z"])).1 =
        none := by
      rw [hstats]
      rw [show pickBest hourElig hourRate [(12, (⟨0, 3⟩ : HourStats))] =
        pickStep hourElig hourRate (none, 0) (12, (⟨0, 3⟩ : HourStats)) from rfl]
      rw [pickStep, if_neg]
      intro hcon
      have hlt := hcon.2
      norm_num [hourRate] at hlt
    simp [get_peak_performance_hours, hpick]

/-- Claim C7 (amended): if some hour bucket has `total >= 3` and at least one
win (hence a strictly positive win rate), `get_peak_performance_hours`
returns a decomposition witnessing the first eligible hour of maximal win
rate: every eligible bucket before it has a strictly smaller win rate, every
eligible bucket has a win rate at most its one, and the output is its
formatted hour with its rounded win rate. -/
theorem peak_hours_amended (battle_log : List MatchRecord)
    (h : ∃ e ∈ hourStats battle_log, 3 ≤ e.2.total ∧ 0 < e.2.wins) :
    ∃ e l1 l2, hourStats battle_log = l1 ++ e :: l2 ∧ 3 ≤ e.2.total ∧
      get_peak_performance_hours battle_log =
        ⟨formatHour e.1, roundTo1 (hourRate e)⟩ ∧
      (∀ x ∈ l1, 3 ≤ x.2.total → hourRate x < hourRate e) ∧
      (∀ x ∈ hourStats battle_log, 3 ≤ x.2.total → hourRate x ≤ hourRate e) := by
  obtain ⟨e0, he0mem, he0tot, he0wins⟩ := h
  have hpos : 0 < hourRate e0 := by
    rw [hourRate]
    have hw : (0 : ℚ) < (e0.2.wins : ℚ) := by exact_mod_cast he0wins
    have ht : (0 : ℚ) < (e0.2.total : ℚ) := by
      exact_mod_cast (show 0 < e0.2.total by omega)
    positivity
  cases hpick : (pickBest hourElig hourRate (hourStats battle_log)).1 with
  | none =>
    have hall := pickBest_none _ _ _ hpick
    have := hall e0 he0mem (by simpa [hourElig] using he0tot)
    linarith
  | some b =>
    obtain ⟨hsc, hbpos, hbelig, l1, l2, hsplit, h1, h2⟩ :=
      pickBest_some _ _ _ _ hpick
    rw [hourElig, decide_eq_true_eq] at hbelig
    refine ⟨b, l1, l2, hsplit, hbelig, ?_, ?_, ?_⟩
    · rw [show get_peak_performance_hours battle_log =
        ⟨formatHour b.1, roundTo1 (pickBest hourElig hourRate (hourStats battle_log)).2⟩ by
          simp [get_peak_performance_hours, hpick], hsc]
    · intro x hx hxt
      exact h1 x hx (by simpa [hourElig] using hxt)
    · intro x hx hxt
      have hex : hourElig x = true := by simpa [hourElig] using hxt
      rw [hsplit] at hx
      rcases List.mem_append.mp hx with hx1 | hx2
      · exact le_of_lt (h1 x hx1 hex)
      · rcases List.mem_cons.mp hx2 with hxb | hxl2
        · subst hxb; exact le_refl _
        · exact h2 x hxl2 hex

theorem peak_hours_amended_witness :
    ∃ e l1 l2, hourStats [demoHourWin "20240101T120000.000Z",
        demoHourWin "20240102T121500.000Z", demoHourWin "20240103T123000.000Z"] =
        l1 ++ e :: l2 ∧ 3 ≤ e.2.total ∧
      get_peak_performance_hours [demoHourWin "20240101T120000.000Z",
          demoHourWin "20240102T121500.000Z", demoHourWin "20240103T123000.000Z"] =
        ⟨formatHour e.1, roundTo1 (hourRate e)⟩ ∧
      (∀ x ∈ l1, 3 ≤ x.2.total → hourRate x < hourRate e) ∧
      (∀ x ∈ hourStats [demoHourWin "20240101T120000.000Z",
          demoHourWin "20240102T121500.000Z", demoHourWin "20240103T123000.000Z"],
        3 ≤ x.2.total → hourRate x ≤ hourRate e) :=
  peak_hours_amended [demoHourWin "20240101T120000.000Z",
    demoHourWin "20240102T121500.000Z", demoHourWin "20240103T123000.000Z"] (by decide)

/-! ### Deck archetype (`get_deck_archetype`) -/

/-- Insertion into a lexicographically sorted list (Python `sorted`). -/
def insStr (x : String) : List String → List String
  | [] => [x]
  | y :: ys => if x < y then x :: y :: ys else y :: insStr x ys

/-- Lexicographic insertion sort of card names (Python `sorted`). -/
def sortStr : List String → List String
  | [] => []
  | x :: t => insStr x (sortStr t)

/-- Deck occurrences of the first 10 matches: one sorted tuple of lower-cased
card names per team participant with a non-empty card list. -/
def deckOccs (battle_log : List MatchRecord) : List (List String) :=
  (battle_log.take 10).flatMap (fun m =>
    (((m.team.getD []).map (fun p =>
        (p.cards.getD []).map (fun c => pyLower (c.name.getD "")))).filter
      (fun cs => cs ≠ [])).map sortStr)

/-- Deck-signature counter (`Counter` keyed by the sorted name tuple). -/
def deckCounts (battle_log : List MatchRecord) : List (List String × Nat) :=
  afold (fun cs => cs) 0 (fun _ v => v + 1) (deckOccs battle_log) []

/-- Representative deck: the profile's `currentDeck` (lower-cased) for an
empty log, else the most frequent deck signature of the first 10 matches
(`most_common(1)`, first maximal key on ties); `none` when the source
returns `"Unknown"`. -/
def representativeDeck (player_data : Profile) (battle_log : List MatchRecord) :
    Option (List String) :=
  if battle_log = [] then
    match player_data.currentDeck with
    | some deck => some (deck.map (fun c => pyLower (c.name.getD "")))
    | none => none
  else
    match pickMaxBy Prod.snd (deckCounts battle_log) with
    | some e => some e.1
    | none => none

/-- Python's substring test `needle in hay` on strings. -/
def substrB (needle hay : String) : Bool := decide (needle.data <:+: hay.data)

/-- Python `' '.join(cards)`. -/
def joinSp : List String → String
  | [] => ""
  | [c] => c
  | c :: cs => c ++ " " ++ joinSp cs

/-- Cycle keywords of the classifier. -/
def cycleCards : List String := ["skeleton", "goblin", "ice spirit", "fire spirit", "bats"]

/-- Beatdown keywords of the classifier. -/
def beatdownCards : List String := ["golem", "giant", "pekka", "lava hound", "royal giant"]

/-- Control keywords of the classifier. -/
def controlCards : List String := ["x-bow", "mortar", "tesla", "inferno"]

/-- Bridge-spam keywords of the classifier. -/
def spamCards : List String := ["bandit", "royal ghost", "dark prince", "battle ram"]

/-- Number of cycle keywords appearing as a substring of some card name
(`sum(1 for card in cycle_cards if any(card in c for c in cards))`). -/
def cycleHits (cards : List String) : Nat :=
  cycleCards.countP (fun k => cards.any (fun c => substrB k c))

/-- Archetype classification of a representative card set, in the source's
branch order (first match wins, substring matching on the joined text). -/
def classifyDeck (cards : List String) : String :=
  let joined := joinSp cards
  if (cycleCards.any (fun k => substrB k joined)) ∧ 3 ≤ cycleHits cards then "Cycle"
  else if beatdownCards.any (fun k => substrB k joined) then "Beatdown"
  else if controlCards.any (fun k => substrB k joined) then "Control"
  else if spamCards.any (fun k => substrB k joined) then "Bridge Spam"
  else "Balanced"

/-- Deck archetype: classify the representative deck, `"Unknown"` when there
is none. -/
def get_deck_archetype (player_data : Profile) (battle_log : List MatchRecord) : String :=
  match representativeDeck player_data battle_log with
  | none => "Unknown"
  | some cards => classifyDeck cards

theorem joinSp_sub_of_mem (c : String) (cards : List String) (h : c ∈ cards) :
    c.data <:+: (joinSp cards).data := by
  induction cards with
  | nil => simp at h
  | cons x cs ih =>
    cases cs with
    | nil =>
      rw [List.mem_singleton] at h
      subst h
      exact List.infix_refl _
    | cons y ys =>
      rw [show joinSp (x :: y :: ys) = x ++ " " ++ joinSp (y :: ys) from rfl]
      rcases List.mem_cons.mp h with hx | hcs
      · subst hx
        have hd : (c ++ " " ++ joinSp (y :: ys)).data =
            c.data ++ (" ".data ++ (joinSp (y :: ys)).data) := by
          simp [String.data_append]
        rw [hd]
        exact (List.prefix_append _ _).isInfix
      · have hih := ih hcs
        have hd : (x ++ " " ++ joinSp (y :: ys)).data =
            (x.data ++ " ".data) ++ (joinSp (y :: ys)).data := by
          simp [String.data_append]
        rw [hd]
        exact hih.trans (List.suffix_append _ _).isInfix

/-- Claim C9: when the representative deck's (lower-cased) card names contain
at least 3 of the cycle keywords as substrings of individual names, the
archetype is `"Cycle"`, regardless of any other keywords present, because the
cycle branch is evaluated first. -/
theorem deck_archetype_cycle (player_data : Profile) (battle_log : List MatchRecord)
    (cards : List String) (h1 : representativeDeck player_data battle_log = some cards)
    (h2 : 3 ≤ cycleHits cards) :
    get_deck_archetype player_data battle_log = "Cycle" := by
  rw [get_deck_archetype, h1]
  have hany : (cycleCards.any (fun k => substrB k (joinSp cards))) = true := by
    have hpos : 0 < cycleHits cards := by omega
    rw [cycleHits] at hpos
    obtain ⟨k, hk, hkp⟩ := List.countP_pos_iff.mp hpos
    obtain ⟨c, hc, hsub⟩ := List.any_eq_true.mp hkp
    have hincard : k.data <:+: c.data := by
      rw [substrB, decide_eq_true_eq] at hsub
      exact hsub
    have hinfix : k.data <:+: (joinSp cards).data :=
      hincard.trans (joinSp_sub_of_mem c cards hc)
    rw [List.any_eq_true]
    refine ⟨k, hk, ?_⟩
    rw [substrB]
    exact decide_eq_true hinfix
  simp only [classifyDeck]
  rw [if_pos ⟨hany, h2⟩]

/-- Demo profile: a cycle deck that also contains a beatdown keyword. -/
def demoCycleProfile : Profile :=
  { name := some "X", tag := some "#X", trophies := some 5000, bestTrophies := some 5200,
    currentDeck := some [⟨some "Skeletons"⟩, ⟨some "Goblins"⟩, ⟨some "Ice Spirit"⟩,
      ⟨some "Golem"⟩] }

theorem deck_archetype_cycle_witness :
    representativeDeck demoCycleProfile [] =
      some ["skeletons", "goblins", "ice spirit", "golem"] ∧
    3 ≤ cycleHits ["skeletons", "goblins", "ice spirit", "golem"] ∧
    get_deck_archetype demoCycleProfile [] = "Cycle" :=
  ⟨by decide, by decide,
   deck_archetype_cycle demoCycleProfile [] ["skeletons", "goblins", "ice spirit", "golem"]
     (by decide) (by decide)⟩

/-! ### Trophy roller coaster (`get_trophy_roller_coaster`) -/

/-- Trophy volatility output record. -/
structure TrophyOut where
  current : Nat
  best : Nat
  biggest_gain : Int
  biggest_loss : Int
  total_swing : Int
  recent_changes : List Int
deriving DecidableEq, Repr

/-- Estimated trophy delta per match over the last 25 matches: `+30` on a
WIN, `-30` on anything else (losses and draws). -/
def trophyChanges (battle_log : List MatchRecord) : List Int :=
  (battle_log.take 25).map (fun m => if isWin m then 30 else -30)

/-- Trophy roller coaster: profile trophies (best defaulting to current),
extremes of the delta list (0 on no matches), `total_swing` as the sum of the
absolute extremes, and the last 10 deltas. -/
def get_trophy_roller_coaster (player_data : Profile) (battle_log : List MatchRecord) :
    TrophyOut :=
  let cur := player_data.trophies.getD 0
  let best := player_data.bestTrophies.getD cur
  match trophyChanges battle_log with
  | [] => ⟨cur, best, 0, 0, 0, []⟩
  | c :: cs =>
    let g := cs.foldl max c
    let l := cs.foldl min c
    ⟨cur, best, g, l, |g| + |l|, (c :: cs).drop ((c :: cs).length - 10)⟩

theorem mem_trophyChanges (battle_log : List MatchRecord) (d : Int)
    (h : d ∈ trophyChanges battle_log) : d = 30 ∨ d = -30 := by
  rw [trophyChanges] at h
  obtain ⟨m, _, hm⟩ := List.mem_map.mp h
  by_cases hw : isWin m
  · left; rw [← hm]; simp [hw]
  · right; rw [← hm]; simp [hw]

theorem foldl_max_pm : ∀ (cs : List Int) (c : Int), (c = 30 ∨ c = -30) →
    (∀ x ∈ cs, x = 30 ∨ x = -30) →
    (cs.foldl max c = 30 ∨ cs.foldl max c = -30) := by
  intro cs
  induction cs with
  | nil => intro c hc _; exact hc
  | cons x t ih =>
    intro c hc hall
    rw [List.foldl_cons]
    apply ih
    · have hx := hall x (List.mem_cons_self _ _)
      rcases hc with rfl | rfl <;> rcases hx with rfl | rfl <;> simp
    · intro y hy; exact hall y (List.mem_cons_of_mem _ hy)

theorem foldl_min_pm : ∀ (cs : List Int) (c : Int), (c = 30 ∨ c = -30) →
    (∀ x ∈ cs, x = 30 ∨ x = -30) →
    (cs.foldl min c = 30 ∨ cs.foldl min c = -30) := by
  intro cs
  induction cs with
  | nil => intro c hc _; exact hc
  | cons x t ih =>
    intro c hc hall
    rw [List.foldl_cons]
    apply ih
    · have hx := hall x (List.mem_cons_self _ _)
      rcases hc with rfl | rfl <;> rcases hx with rfl | rfl <;> simp
    · intro y hy; exact hall y (List.mem_cons_of_mem _ hy)

theorem foldl_max_allneg : ∀ (cs : List Int) (c : Int), c = -30 →
    (∀ x ∈ cs, x = -30) → cs.foldl max c = -30 := by
  intro cs
  induction cs with
  | nil => intro c hc _; exact hc
  | cons x t ih =>
    intro c hc hall
    rw [List.foldl_cons]
    apply ih
    · have hx := hall x (List.mem_cons_self _ _)
      subst hc; subst hx; simp
    · intro y hy; exact hall y (List.mem_cons_of_mem _ hy)

theorem trophyChanges_ne_nil (battle_log : List MatchRecord) (h : battle_log ≠ []) :
    trophyChanges battle_log ≠ [] := by
  cases battle_log with
  | nil => exact absurd rfl h
  | cons m t =>
    rw [trophyChanges]
    intro hcon
    rw [List.map_eq_nil_iff, List.take_eq_nil_iff] at hcon
    simp at hcon

/-- Claim C10: for a non-empty battle log every delta is exactly `+30` or
`-30`, `biggest_gain` and `biggest_loss` each lie in `{30, -30}` (and
`biggest_gain = -30` when every match of the 25-match window is a loss or
draw), and `total_swing` is exactly 60; for an empty log the three summary
numbers are 0 and `recent_changes` is empty. -/
theorem trophy_roller_coaster_correct (player_data : Profile)
    (battle_log : List MatchRecord) :
    (battle_log ≠ [] →
      (∀ d ∈ trophyChanges battle_log, d = 30 ∨ d = -30) ∧
      ((get_trophy_roller_coaster player_data battle_log).biggest_gain = 30 ∨
        (get_trophy_roller_coaster player_data battle_log).biggest_gain = -30) ∧
      ((get_trophy_roller_coaster player_data battle_log).biggest_loss = 30 ∨
        (get_trophy_roller_coaster player_data battle_log).biggest_loss = -30) ∧
      ((∀ m ∈ battle_log.take 25, isWin m = false) →
        (get_trophy_roller_coaster player_data battle_log).biggest_gain = -30) ∧
      (get_trophy_roller_coaster player_data battle_log).total_swing = 60) ∧
    (battle_log = [] →
      (get_trophy_roller_coaster player_data battle_log).biggest_gain = 0 ∧
      (get_trophy_roller_coaster player_data battle_log).biggest_loss = 0 ∧
      (get_trophy_roller_coaster player_data battle_log).total_swing = 0 ∧
      (get_trophy_roller_coaster player_data battle_log).recent_changes = []) := by
  constructor
  · intro hne
    have hmem := mem_trophyChanges battle_log
    cases hc : trophyChanges battle_log with
    | nil => exact absurd hc (trophyChanges_ne_nil battle_log hne)
    | cons c cs =>
      have hcm : c = 30 ∨ c = -30 := by
        apply hmem
        rw [hc]
        exact List.mem_cons_self _ _
      have hcsm : ∀ x ∈ cs, x = 30 ∨ x = -30 := by
        intro x hx
        apply hmem
        rw [hc]
        exact List.mem_cons_of_mem _ hx
      have hrec : get_trophy_roller_coaster player_data battle_log =
          ⟨player_data.trophies.getD 0,
           player_data.bestTrophies.getD (player_data.trophies.getD 0),
           cs.foldl max c, cs.foldl min c, |cs.foldl max c| + |cs.foldl min c|,
           (c :: cs).drop ((c :: cs).length - 10)⟩ := by
        rw [get_trophy_roller_coaster, hc]
      have hg := foldl_max_pm cs c hcm hcsm
      have hl := foldl_min_pm cs c hcm hcsm
      refine ⟨fun d hd => hmem d (by rw [hc]; exact hd), ?_, ?_, ?_, ?_⟩
      · rw [hrec]; exact hg
      · rw [hrec]; exact hl
      · intro hall
        have hneg : ∀ d ∈ trophyChanges battle_log, d = -30 := by
          intro d hd
          rw [trophyChanges] at hd
          obtain ⟨m, hm, hdm⟩ := List.mem_map.mp hd
          rw [← hdm, hall m hm]
          simp
        rw [hrec]
        apply foldl_max_allneg
        · exact hneg c (by rw [hc]; exact List.mem_cons_self _ _)
        · intro x hx
          exact hneg x (by rw [hc]; exact List.mem_cons_of_mem _ hx)
      · rw [hrec]
        rcases hg with hg2 | hg2 <;> rcases hl with hl2 | hl2 <;>
          simp only [hg2, hl2] <;> norm_num
  · intro hnil
    subst hnil
    refine ⟨rfl, rfl, rfl, rfl⟩

theorem trophy_roller_coaster_correct_witness :
    (get_trophy_roller_coaster demoCycleProfile [demoGemLoss]).biggest_gain = -30 ∧
    (get_trophy_roller_coaster demoCycleProfile [demoGemLoss]).total_swing = 60 ∧
    (get_trophy_roller_coaster demoCycleProfile []).recent_changes = [] := by
  have h1 := (trophy_roller_coaster_correct demoCycleProfile [demoGemLoss]).1
    (by decide)
  have h2 := (trophy_roller_coaster_correct demoCycleProfile []).2 rfl
  exact ⟨h1.2.2.2.1 (by decide), h1.2.2.2.2, h2.2.2.2⟩

/-! ### Aggregator (`analyze_player`) -/

/-- Narrative nemesis relationship message, empty when the nemesis data is
the sentinel or has no matches. -/
def nemesisMessage (nd : OppStats) : String :=
  if nd.name ≠ "N/A" ∧ 0 < nd.total then
    (if nd.losses < nd.wins then nd.name ++ " is your bitch"
     else if nd.wins < nd.losses then "You are " ++ nd.name ++ "\x27s bitch"
     else "Evenly matched with " ++ nd.name)
  else ""

/-- Nemesis output record: the accumulated statistics plus the message. -/
structure NemesisOut where
  name : String
  tag : String
  wins : Nat
  losses : Nat
  total : Nat
  message : String
deriving DecidableEq, Repr

/-- Derived insight record assembled by the aggregator. -/
structure InsightRecord where
  top_loyal_cards : List CardEntry
  longest_win_streak : Nat
  comeback_king_percentage : ℚ
  deck_archetype : String
  rare_gem : RareGem
  nemesis : NemesisOut
  peak_performance_hours : PeakOut
  trophy_roller_coaster : TrophyOut
  player_name : String
  player_tag : String
deriving DecidableEq, Repr

/-- Aggregator: invoke every extractor on the same inputs, derive the nemesis
message, and pass through the profile identity fields with their defaults.
Every extractor is a total function, so the whole record is always built. -/
def analyze_player (player_data : Profile) (battle_log : List MatchRecord) :
    InsightRecord :=
  let nd := get_nemesis battle_log
  { top_loyal_cards := get_top_loyal_cards player_data battle_log,
    longest_win_streak := get_longest_win_streak battle_log,
    comeback_king_percentage := get_comeback_king_percentage battle_log,
    deck_archetype := get_deck_archetype player_data battle_log,
    rare_gem := get_rare_gem battle_log,
    nemesis := ⟨nd.name, nd.tag, nd.wins, nd.losses, nd.total, nemesisMessage nd⟩,
    peak_performance_hours := get_peak_performance_hours battle_log,
    trophy_roller_coaster := get_trophy_roller_coaster player_data battle_log,
    player_name := player_data.name.getD "Unknown",
    player_tag := player_data.tag.getD "" }

/-- Claim C1: `analyze_player` is a total function on well-typed inputs (it
is defined for every profile and every, possibly empty, match list — the
shallow embedding of "always succeeds, no exceptions"), and its output's
`player_name` is the profile's name defaulting to `"Unknown"` and its
`player_tag` is the profile's tag defaulting to the empty string. -/
theorem analyze_player_identity (player_data : Profile) (battle_log : List MatchRecord) :
    (analyze_player player_data battle_log).player_name =
      player_data.name.getD "Unknown" ∧
    (analyze_player player_data battle_log).player_tag = player_data.tag.getD "" :=
  ⟨rfl, rfl⟩
